import Mathlib

set_option autoImplicit false

/-!
Shallow embedding of the resume-ingestion core of the repository
(`pdfHandler.py`, `qDrantHandler.py`): text chunking, section/list parsing,
role parsing, years-of-experience computation, keyword normalisation and the
natural-language filter translator, together with proofs of the behavioural
properties stated for them.
-/

namespace RagSpec

/-- Characters that Python `str.strip()` / regex `\s` treat as whitespace
(ASCII range, which is what the repository's inputs use). -/
def isPySpace (c : Char) : Bool :=
  c = ' ' || c = '\t' || c = '\n' || c = '\r' || c = '\x0b' || c = '\x0c'

/-- Text is modelled as a list of characters. -/
abbrev Str : Type := List Char

/-- Python `str.lstrip()` (no arguments). -/
def pyLStrip (s : Str) : Str := s.dropWhile fun c => isPySpace c

/-- Python `str.rstrip()` (no arguments). -/
def pyRStrip (s : Str) : Str := (s.reverse.dropWhile fun c => isPySpace c).reverse

/-- Python `str.strip()` (no arguments). -/
def pyStrip (s : Str) : Str := pyRStrip (pyLStrip s)

/-- Python slice `t[a:b]` for natural indices. -/
def pySlice (t : Str) (a b : Nat) : Str := (t.take b).drop a

/-!
 ## `PdfHandler.__init__` (pdfHandler.py lines 104-108)

`__init__` raises `ValueError("chunk_overlap must be smaller than chunk_size")`
when `chunk_overlap >= chunk_size`; a raised error is modelled as `Except.error`.
-/

structure PdfHandler where
  chunk_size : Nat
  chunk_overlap : Nat
deriving DecidableEq, Repr

def PdfHandler.init (chunk_size chunk_overlap : Nat) : Except String PdfHandler :=
  if chunk_overlap ≥ chunk_size then
    Except.error "chunk_overlap must be smaller than chunk_size"
  else
    Except.ok ⟨chunk_size, chunk_overlap⟩

/-!
 ## `PdfHandler._chunk_text` (pdfHandler.py lines 184-199)

The `while` loop is embedded with an explicit fuel parameter; `chunk_text`
supplies fuel `n + 1`, which the termination theorem shows is enough.
-/

/-- One source line 191-198 `while` loop of `_chunk_text`, fuelled. -/
def chunkLoop (t : Str) (chunk_size overlap : Nat) : Nat → Nat → List (Str × Nat × Nat)
  | 0, _ => []
  | fuel + 1, start =>
    if start < t.length then
      let e := min (start + chunk_size) t.length
      let chunk := pyStrip (pySlice t start e)
      let rest :=
        if e = t.length then []
        else chunkLoop t chunk_size overlap fuel (max (e - overlap) 0)
      if chunk ≠ [] then (chunk, start, e) :: rest else rest
    else []

/-- `PdfHandler._chunk_text`: strip the text, then run the sliding-window loop. -/
def chunk_text (text : Str) (chunk_size overlap : Nat) : List (Str × Nat × Nat) :=
  let t := pyStrip text
  if t.length = 0 then [] else chunkLoop t chunk_size overlap (t.length + 1) 0

/-- The overlap-chaining property exactly as the specification states it:
every non-final chunk (i.e. every transition except possibly the last one)
is followed by a chunk whose start offset is its end offset minus `overlap`. -/
def specChainB (out : List (Str × Nat × Nat)) (overlap : Nat) : Bool :=
  (List.range out.length).all fun i =>
    if h : i + 2 < out.length then
      decide ((out.get ⟨i + 1, by omega⟩).2.1 = (out.get ⟨i, by omega⟩).2.2 - overlap)
    else
      true

/-- The corrected chaining relation between consecutive emitted chunks:
the successor's start is `end - overlap` advanced by one stride
`chunk_size - overlap` for each intervening all-whitespace window that was
skipped (`k = 0` when none was skipped). -/
def chainStep (chunk_size overlap : Nat) (c₁ c₂ : Str × Nat × Nat) : Prop :=
  ∃ k : Nat, c₂.2.1 = c₁.2.2 - overlap + k * (chunk_size - overlap)

/-!
 ### Basic lemmas about stripping
-/

theorem pyLStrip_eq_nil_iff (s : Str) :
    pyLStrip s = [] ↔ ∀ c ∈ s, isPySpace c := by
  simp [pyLStrip, List.dropWhile_eq_nil_iff]

theorem pyRStrip_eq_nil_iff (s : Str) :
    pyRStrip s = [] ↔ ∀ c ∈ s, isPySpace c := by
  simp [pyRStrip, List.dropWhile_eq_nil_iff]

theorem pyStrip_eq_nil_iff (s : Str) :
    pyStrip s = [] ↔ ∀ c ∈ s, isPySpace c := by
  unfold pyStrip
  rw [pyRStrip_eq_nil_iff]
  have hsplit : List.takeWhile (fun c => isPySpace c) s ++ pyLStrip s = s :=
    List.takeWhile_append_dropWhile ..
  constructor
  · intro h c hc
    rw [← hsplit] at hc
    rcases List.mem_append.mp hc with h1 | h2
    · exact List.mem_takeWhile_imp h1
    · exact h c h2
  · intro h c hc
    refine h c ?_
    rw [← hsplit]
    exact List.mem_append.mpr (Or.inr hc)

theorem head?_dropWhile_not (p : Char → Bool) :
    ∀ l : Str, ∀ c, (l.dropWhile p).head? = some c → p c = false := by
  intro l
  induction l with
  | nil => intro c h; simp [List.dropWhile] at h
  | cons a l ih =>
    intro c h
    by_cases hp : p a
    · rw [List.dropWhile_cons_of_pos hp] at h
      exact ih c h
    · rw [List.dropWhile_cons_of_neg hp] at h
      simp at h
      subst h
      exact Bool.of_not_eq_true hp

/-- The last character of a stripped string is never whitespace. -/
theorem pyStrip_getLast?_not_space (s : Str) (c : Char)
    (h : (pyStrip s).getLast? = some c) : isPySpace c = false := by
  unfold pyStrip pyRStrip at h
  rw [List.getLast?_reverse] at h
  exact head?_dropWhile_not _ _ _ h

theorem getLast?_mem {α : Type} (l : List α) (a : α) (h : l.getLast? = some a) :
    a ∈ l := by
  cases l with
  | nil => simp at h
  | cons x xs =>
    rw [List.getLast?_eq_getLast _ (by simp)] at h
    have := List.getLast_mem (l := x :: xs) (by simp)
    rwa [Option.some_inj.mp h] at this

/-- Every suffix of a string whose last character is not whitespace strips to
a non-empty string. -/
theorem pyStrip_slice_to_end_ne_nil (t : Str)
    (hlast : ∀ c, t.getLast? = some c → isPySpace c = false)
    (start : Nat) (h : start < t.length) :
    pyStrip (pySlice t start t.length) ≠ [] := by
  intro hnil
  have hdrop : pySlice t start t.length = t.drop start := by
    unfold pySlice
    rw [List.take_length]
  rw [hdrop] at hnil
  have hne : t.drop start ≠ [] := by
    intro hd
    have := List.length_drop start t
    rw [hd] at this
    simp at this
    omega
  have hsame : (t.drop start).getLast? = t.getLast? := by
    conv_rhs => rw [← List.take_append_drop start t]
    rw [List.getLast?_append_of_ne_nil _ hne]
  have hsome : (t.drop start).getLast? = some ((t.drop start).getLast hne) :=
    List.getLast?_eq_getLast _ hne
  have hfalse : isPySpace ((t.drop start).getLast hne) = false :=
    hlast _ (by rw [← hsame]; exact hsome)
  have hmem : (t.drop start).getLast hne ∈ t.drop start :=
    getLast?_mem _ _ hsome
  have htrue := (pyStrip_eq_nil_iff _).mp hnil _ hmem
  rw [htrue] at hfalse
  exact Bool.noConfusion hfalse

/-- Master invariant of the `_chunk_text` loop, proved by induction on the
fuel: offset bounds and chunk/slice agreement, non-emptiness from any start
position still inside the text, the final chunk ending at the text's length,
the corrected overlap chaining, and the head-offset congruence used to glue
the chaining across a recursive call. -/
theorem chunkLoop_invariant (t : Str) (cs ov : Nat) (hov : ov < cs)
    (hlast : ∀ c, t.getLast? = some c → isPySpace c = false) :
    ∀ fuel start, t.length ≤ start + fuel →
      (∀ c a b, (c, a, b) ∈ chunkLoop t cs ov fuel start →
          start ≤ a ∧ a < b ∧ b ≤ t.length ∧ c = pyStrip (pySlice t a b) ∧ c ≠ []) ∧
      (start < t.length → chunkLoop t cs ov fuel start ≠ []) ∧
      (∀ h : chunkLoop t cs ov fuel start ≠ [],
          ((chunkLoop t cs ov fuel start).getLast h).2.2 = t.length) ∧
      List.Chain' (chainStep cs ov) (chunkLoop t cs ov fuel start) ∧
      (∀ first ∈ (chunkLoop t cs ov fuel start).head?,
          ∃ k, first.2.1 = start + k * (cs - ov)) := by
  intro fuel
  induction fuel with
  | zero =>
    intro start hfuel
    simp only [chunkLoop]
    refine ⟨by simp, fun hlt => absurd hfuel (by omega), by simp, by simp, by simp⟩
  | succ fuel ih =>
    intro start hfuel
    by_cases hsn : start < t.length
    case neg =>
      simp only [chunkLoop, if_neg hsn]
      refine ⟨by simp, fun hlt => absurd hlt hsn, by simp, by simp, by simp⟩
    case pos =>
      have hunfold : chunkLoop t cs ov (fuel + 1) start =
          (if pyStrip (pySlice t start (min (start + cs) t.length)) ≠ [] then
            (pyStrip (pySlice t start (min (start + cs) t.length)), start,
              min (start + cs) t.length) ::
            (if min (start + cs) t.length = t.length then []
             else chunkLoop t cs ov fuel (max (min (start + cs) t.length - ov) 0))
          else
            (if min (start + cs) t.length = t.length then []
             else chunkLoop t cs ov fuel (max (min (start + cs) t.length - ov) 0))) := by
        simp only [chunkLoop, if_pos hsn]
      by_cases hend : min (start + cs) t.length = t.length
      case pos =>
        -- final window: it always emits (the last character is not whitespace)
        have hne := pyStrip_slice_to_end_ne_nil t hlast start hsn
        have hloop : chunkLoop t cs ov (fuel + 1) start =
            [(pyStrip (pySlice t start (min (start + cs) t.length)), start,
              min (start + cs) t.length)] := by
          rw [hunfold, if_pos (by rw [hend]; exact hne), if_pos hend]
        rw [hloop]
        refine ⟨?_, by simp, ?_, by simp [List.chain'_singleton], ?_⟩
        · intro c a b hmem
          simp only [List.mem_singleton, Prod.mk.injEq] at hmem
          obtain ⟨hc, ha, hb⟩ := hmem
          subst hc; subst ha; subst hb
          exact ⟨le_refl _, by omega, by omega, rfl, by rw [hend]; exact hne⟩
        · intro h
          simp [hend]
        · intro first hfirst
          simp only [List.head?_cons, Option.mem_def, Option.some.injEq] at hfirst
          exact ⟨0, by subst hfirst; simp⟩
      case neg =>
        -- interior window: `e = start + cs < t.length`, recursion continues
        have he : min (start + cs) t.length = start + cs := by omega
        have hel : start + cs < t.length := by omega
        have hnext : max (min (start + cs) t.length - ov) 0 = start + (cs - ov) := by
          omega
        have hstep : start + (cs - ov) < t.length := by omega
        have hfuel' : t.length ≤ start + (cs - ov) + fuel := by omega
        obtain ⟨ihA, ihB, ihC, ihD, ihE⟩ := ih (start + (cs - ov)) hfuel'
        have hrestne : chunkLoop t cs ov fuel (start + (cs - ov)) ≠ [] := ihB hstep
        by_cases hchunk : pyStrip (pySlice t start (min (start + cs) t.length)) ≠ []
        case pos =>
          have hloop : chunkLoop t cs ov (fuel + 1) start =
              (pyStrip (pySlice t start (min (start + cs) t.length)), start,
                min (start + cs) t.length) ::
                chunkLoop t cs ov fuel (start + (cs - ov)) := by
            rw [hunfold, if_pos hchunk, if_neg hend, hnext]
          rw [hloop]
          refine ⟨?_, by simp, ?_, ?_, ?_⟩
          · intro c a b hmem
            rcases List.mem_cons.mp hmem with hhd | htl
            · simp only [Prod.mk.injEq] at hhd
              obtain ⟨hc, ha, hb⟩ := hhd
              subst hc; subst ha; subst hb
              exact ⟨le_refl _, by omega, by omega, rfl, hchunk⟩
            · obtain ⟨h1, h2, h3, h4, h5⟩ := ihA c a b htl
              exact ⟨by omega, h2, h3, h4, h5⟩
          · intro h
            rw [List.getLast_cons hrestne]
            exact ihC hrestne
          · rw [List.chain'_cons']
            refine ⟨?_, ihD⟩
            intro y hy
            obtain ⟨k, hk⟩ := ihE y hy
            refine ⟨k, ?_⟩
            simp only [hk, he]
            omega
          · intro first hfirst
            simp only [List.head?_cons, Option.mem_def, Option.some.injEq] at hfirst
            exact ⟨0, by subst hfirst; simp⟩
        case neg =>
          have hloop : chunkLoop t cs ov (fuel + 1) start =
              chunkLoop t cs ov fuel (start + (cs - ov)) := by
            rw [hunfold, if_neg hchunk, if_neg hend, hnext]
          rw [hloop]
          refine ⟨?_, fun _ => hrestne, ihC, ihD, ?_⟩
          · intro c a b hmem
            obtain ⟨h1, h2, h3, h4, h5⟩ := ihA c a b hmem
            exact ⟨by omega, h2, h3, h4, h5⟩
          · intro first hfirst
            obtain ⟨k, hk⟩ := ihE first hfirst
            exact ⟨k + 1, by rw [hk]; ring⟩

theorem chunkLoop_of_ge (t : Str) (cs ov start : Nat) (h : t.length ≤ start) :
    ∀ fuel, chunkLoop t cs ov fuel start = [] := by
  intro fuel
  cases fuel with
  | zero => rfl
  | succ fuel => simp only [chunkLoop, if_neg (by omega : ¬ start < t.length)]

/-- Any two sufficient fuels give the same loop result: the loop terminates
within `t.length - start` iterations. -/
theorem chunkLoop_fuel_congr (t : Str) (cs ov : Nat) (hov : ov < cs) :
    ∀ f₁ start f₂, t.length ≤ start + f₁ → t.length ≤ start + f₂ →
      chunkLoop t cs ov f₁ start = chunkLoop t cs ov f₂ start := by
  intro f₁
  induction f₁ with
  | zero =>
    intro start f₂ h₁ h₂
    rw [chunkLoop_of_ge t cs ov start (by omega), chunkLoop_of_ge t cs ov start (by omega)]
  | succ f₁ ih =>
    intro start f₂ h₁ h₂
    by_cases hsn : start < t.length
    case neg =>
      rw [chunkLoop_of_ge t cs ov start (by omega), chunkLoop_of_ge t cs ov start (by omega)]
    case pos =>
      obtain ⟨g, rfl⟩ : ∃ g, f₂ = g + 1 := ⟨f₂ - 1, by omega⟩
      simp only [chunkLoop, if_pos hsn]
      by_cases hend : min (start + cs) t.length = t.length
      · simp only [if_pos hend]
      · have hnext : max (min (start + cs) t.length - ov) 0 = start + (cs - ov) := by omega
        simp only [if_neg hend, hnext]
        rw [ih (start + (cs - ov)) g (by omega) (by omega)]

/-- C3, amended.  For every `overlap < chunk_size` and every input:
the chunk list is non-empty iff the stripped input is non-empty; every triple
`(text, start, end)` satisfies `start < end ≤ len` with the re-trimmed
substring at `[start, end)` equal to the chunk text; consecutive chunks are
chained by `start₂ = end₁ - overlap + k·(chunk_size - overlap)` for some
`k ≥ 0` (`k` counts skipped all-whitespace windows, `0` when none is
skipped); and the final chunk ends at the stripped input's length. -/
theorem C3_chunk_text_spec (text : Str) (cs ov : Nat) (hov : ov < cs) :
    (chunk_text text cs ov ≠ [] ↔ pyStrip text ≠ []) ∧
    (∀ c a b, (c, a, b) ∈ chunk_text text cs ov →
        a < b ∧ b ≤ (pyStrip text).length ∧ c = pyStrip (pySlice (pyStrip text) a b)) ∧
    List.Chain' (chainStep cs ov) (chunk_text text cs ov) ∧
    (∀ h : chunk_text text cs ov ≠ [],
        ((chunk_text text cs ov).getLast h).2.2 = (pyStrip text).length) := by
  have hlast := pyStrip_getLast?_not_space text
  unfold chunk_text
  by_cases hz : (pyStrip text).length = 0
  case pos =>
    simp only [if_pos hz]
    have : pyStrip text = [] := List.length_eq_zero.mp hz
    refine ⟨by simp [this], by simp, by simp, by simp⟩
  case neg =>
    simp only [if_neg hz]
    obtain ⟨hA, hB, hC, hD, _⟩ :=
      chunkLoop_invariant (pyStrip text) cs ov hov (fun c hc => hlast c hc)
        ((pyStrip text).length + 1) 0 (by omega)
    refine ⟨?_, ?_, hD, hC⟩
    · constructor
      · intro _
        exact fun hnil => hz (by rw [hnil]; rfl)
      · intro _
        exact hB (by omega)
    · intro c a b hmem
      obtain ⟨_, h2, h3, h4, _⟩ := hA c a b hmem
      exact ⟨h2, h3, h4⟩

/-- C3 witness: the amended theorem applied at chunk size 3, overlap 1 on a
concrete input. -/
theorem C3_chunk_text_spec_witness :
    1 < 3 ∧
    (chunk_text ("ab      cd".data) 3 1 ≠ [] ↔ pyStrip ("ab      cd".data) ≠ []) ∧
    List.Chain' (chainStep 3 1) (chunk_text ("ab      cd".data) 3 1) :=
  ⟨by decide, (C3_chunk_text_spec ("ab      cd".data) 3 1 (by decide)).1,
    (C3_chunk_text_spec ("ab      cd".data) 3 1 (by decide)).2.2.1⟩

/-- C3 counterexample: with chunk size 3 and overlap 1 on `"ab      cd"`,
interior all-whitespace windows are skipped, so the chunk after
`("ab", 0, 3)` starts at 6, not at `3 - 1 = 2`, and that transition is not
the last one — the claim's exact-overlap chaining fails. -/
theorem C3_counterexample :
    chunk_text ("ab      cd".data) 3 1 =
      [("ab".data, 0, 3), ("c".data, 6, 9), ("cd".data, 8, 10)] ∧
    specChainB (chunk_text ("ab      cd".data) 3 1) 1 = false := by
  constructor <;> decide

/-- C4: constructing a `PdfHandler` fails with the configuration error
exactly when `chunk_overlap ≥ chunk_size`, and succeeds (returning the
handler, with no error possible later: every extraction function in this
development is total and returns absent/empty values on failed heuristics)
exactly when `chunk_overlap < chunk_size`. -/
theorem C4_init_validation (cs ov : Nat) :
    (PdfHandler.init cs ov =
        Except.error "chunk_overlap must be smaller than chunk_size" ↔ cs ≤ ov) ∧
    (PdfHandler.init cs ov = Except.ok ⟨cs, ov⟩ ↔ ov < cs) := by
  unfold PdfHandler.init
  split_ifs with h
  · exact ⟨⟨fun _ => by omega, fun _ => rfl⟩, ⟨fun hh => by simp at hh, fun hh => by omega⟩⟩
  · exact ⟨⟨fun hh => by simp at hh, fun hh => by omega⟩, ⟨fun _ => by omega, fun _ => rfl⟩⟩

/-- C5: the chunking loop terminates — any fuel larger than the stripped
text's length yields the fixed result `chunk_text`, and on every non-final
iteration (window end strictly below the text length) the next window start
strictly exceeds the current one. -/
theorem C5_chunkLoop_terminates (text : Str) (cs ov : Nat) (hov : ov < cs) :
    (∀ fuel, (pyStrip text).length < fuel →
        chunkLoop (pyStrip text) cs ov fuel 0 = chunk_text text cs ov) ∧
    (∀ start, start < (pyStrip text).length →
        min (start + cs) (pyStrip text).length ≠ (pyStrip text).length →
        start < max (min (start + cs) (pyStrip text).length - ov) 0) := by
  constructor
  · intro fuel hfuel
    unfold chunk_text
    by_cases hz : (pyStrip text).length = 0
    · simp only [if_pos hz]
      exact chunkLoop_of_ge _ cs ov 0 (by omega) fuel
    · simp only [if_neg hz]
      exact chunkLoop_fuel_congr (pyStrip text) cs ov hov fuel 0
        ((pyStrip text).length + 1) (by omega) (by omega)
  · intro start h1 h2
    omega

/-- C5 witness: the termination theorem applied at a concrete input, chunk
size 3, overlap 1, fuel 12. -/
theorem C5_chunkLoop_terminates_witness :
    1 < 3 ∧ (pyStrip ("ab      cd".data)).length < 12 ∧
    chunkLoop (pyStrip ("ab      cd".data)) 3 1 12 0 =
      chunk_text ("ab      cd".data) 3 1 :=
  ⟨by decide, by decide,
    (C5_chunkLoop_terminates ("ab      cd".data) 3 1 (by decide)).1 12 (by decide)⟩

/-!
 ## The `ISO_DATE` regex (pdfHandler.py line 15): `\b(\d{4})-(\d{2})-(\d{2})\b`

`isoFindall` embeds `ISO_DATE.findall` (successive non-overlapping leftmost
matches, each as its `(year, month, day)` capture groups), and `isoSearch`
embeds truthiness of `ISO_DATE.search` (for this fixed-shape regex, `search`
succeeds iff `findall` is non-empty).
-/

/-- Python regex word character (`\w`), ASCII range. -/
def isWordChar (c : Char) : Bool := c.isAlphanum || c = '_'

/-- A `\b` boundary holds before a word character iff the preceding
character (if any) is not a word character. -/
def boundaryBefore (prev : Option Char) : Bool :=
  match prev with
  | none => true
  | some c => !isWordChar c

/-- A `\b` boundary holds after a word character iff the following
character (if any) is not a word character. -/
def boundaryAfter (next : Str) : Bool :=
  match next with
  | [] => true
  | c :: _ => !isWordChar c

/-- Scanner underlying `ISO_DATE.findall`: try the (fixed-shape) pattern at
the current position; on success record the groups and resume after the
match, otherwise advance one character. -/
def isoFindAux : Nat → Option Char → Str → List (Str × Str × Str)
  | 0, _, _ => []
  | _ + 1, _, [] => []
  | fuel + 1, prev, c :: cs =>
    match c :: cs with
    | y1 :: y2 :: y3 :: y4 :: '-' :: m1 :: m2 :: '-' :: d1 :: d2 :: rest =>
      if boundaryBefore prev && y1.isDigit && y2.isDigit && y3.isDigit && y4.isDigit &&
          m1.isDigit && m2.isDigit && d1.isDigit && d2.isDigit && boundaryAfter rest then
        ([y1, y2, y3, y4], [m1, m2], [d1, d2]) :: isoFindAux fuel (some d2) rest
      else
        isoFindAux fuel (some c) cs
    | _ => isoFindAux fuel (some c) cs

/-- `ISO_DATE.findall(s)`. -/
def isoFindall (s : Str) : List (Str × Str × Str) := isoFindAux (s.length + 1) none s

/-- Truthiness of `ISO_DATE.search(s)`. -/
def isoSearch (s : Str) : Bool := !(isoFindall s).isEmpty

/-- `"-".join(ds[i])` for one findall group triple. -/
def joinDate (d : Str × Str × Str) : Str := d.1 ++ '-' :: d.2.1 ++ '-' :: d.2.2

/-!
 ## `PdfHandler._parse_roles` (pdfHandler.py lines 367-437)
-/

structure Role where
  title : Str
  company : Option Str := none
  location : Option Str := none
  start : Option Str := none
  end_ : Option Str := none
  bullets : List Str := []
deriving DecidableEq, Repr

/-- Python truthiness of an `Optional[str]` field (`None` and `""` are falsy). -/
def optTruthy (o : Option Str) : Bool :=
  match o with
  | none => false
  | some s => s ≠ []

/-- The retention test of `_parse_roles`'s `flush`:
`cur.title or cur.company or cur.start or cur.end or cur.bullets`. -/
def roleKeep (r : Role) : Bool :=
  r.title ≠ [] || optTruthy r.company || optTruthy r.start || optTruthy r.end_ ||
    r.bullets ≠ []

/-- `flush()` of `_parse_roles`: emit the in-progress role if it is retained. -/
def flushRole (cur : Option Role) (roles : List Role) : List Role :=
  match cur with
  | some r => if roleKeep r then roles ++ [r] else roles
  | none => roles

/-- Split a string at the first occurrence of `sep` (Python `split(sep, 1)`
when the separator occurs). -/
def splitFirst (sep : Char) : Str → Option (Str × Str)
  | [] => none
  | c :: cs =>
    if c = sep then some ([], cs)
    else (splitFirst sep cs).map fun p => (c :: p.1, p.2)

/-- Split a string at every occurrence of `sep` (Python `split(sep)`,
empty pieces included). -/
def splitAll (sep : Char) : Str → List Str
  | [] => [[]]
  | c :: cs =>
    if c = sep then [] :: splitAll sep cs
    else
      match splitAll sep cs with
      | [] => [[c]]
      | p :: ps => (c :: p) :: ps

/-- The bullet glyphs of `lstrip("•-–* ")`. -/
def bulletSet : Str := ['•', '-', '–', '*', ' ']

/-- `line.lstrip().startswith(("•", "-", "–", "*"))`. -/
def bulletStarts (line : Str) : Bool :=
  match pyLStrip line with
  | [] => false
  | c :: _ => c = '•' || c = '-' || c = '–' || c = '*'

/-- Python `lstrip` with an explicit character set. -/
def pyLStripSet (set : Str) (s : Str) : Str := s.dropWhile fun c => set.contains c

/-- `line.lstrip("•-–* ").strip()` — the text of a bullet line. -/
def bulletText (line : Str) : Str := pyStrip (pyLStripSet bulletSet line)

/-- Python `a or b` on `Optional[str]` values. -/
def pyOr (a b : Option Str) : Option Str :=
  match a with
  | some s => if s = [] then b else some s
  | none => b

/-- The line-classification loop of `_parse_roles` (lines 383-434), carrying
the in-progress role and the emitted roles; the fuel argument makes the
recursion structural (each iteration consumes at least one line, so fuel
`length + 1` is always enough). -/
def parseRolesLoop : Nat → Option Role → List Role → List Str → List Role
  | 0, cur, roles, _ => flushRole cur roles
  | _ + 1, cur, roles, [] => flushRole cur roles
  | fuel + 1, cur, roles, line :: rest =>
    if line.contains '-' && !isoSearch line then
      match splitFirst '-' line with
      | some (p0, p1) =>
        let title_part := pyStrip p0
        let rest_part := pyStrip p1
        let (company, location) :=
          if rest_part.contains ',' then
            match splitFirst ',' rest_part with
            | some (q0, q1) => (some (pyStrip q0), some (pyStrip q1))
            | none => (none, none)
          else
            (if rest_part ≠ [] then some rest_part else none, none)
        match rest with
        | l2 :: rest₂ =>
          if isoSearch l2 then
            let ds := isoFindall l2
            let startv := (ds.head?).map joinDate
            let endv := (ds.getLast?).map joinDate
            parseRolesLoop fuel
              (some ⟨title_part, company, location, startv, endv, []⟩)
              (flushRole cur roles) rest₂
          else
            parseRolesLoop fuel (some ⟨title_part, company, location, none, none, []⟩)
              (flushRole cur roles) (l2 :: rest₂)
        | [] =>
          parseRolesLoop fuel (some ⟨title_part, company, location, none, none, []⟩)
            (flushRole cur roles) []
      | none => parseRolesLoop fuel cur roles rest
    else if bulletStarts line then
      let c := cur.getD ⟨[], none, none, none, none, []⟩
      parseRolesLoop fuel (some { c with bullets := c.bullets ++ [bulletText line] })
        roles rest
    else if isoSearch line then
      let ds := isoFindall line
      let startv := (ds.head?).map joinDate
      let endv := (ds.getLast?).map joinDate
      let c := cur.getD ⟨[], none, none, none, none, []⟩
      parseRolesLoop fuel
        (some { c with start := pyOr c.start startv, end_ := pyOr c.end_ endv })
        roles rest
    else
      parseRolesLoop fuel cur roles rest

/-- `PdfHandler._parse_roles`. -/
def parse_roles (sec : List Str) : List Role :=
  parseRolesLoop (sec.length + 1) none [] sec

theorem flushRole_keep (cur : Option Role) (roles : List Role)
    (h : ∀ r ∈ roles, roleKeep r = true) :
    ∀ r ∈ flushRole cur roles, roleKeep r = true := by
  intro r hr
  cases cur with
  | none => exact h r hr
  | some c =>
    have hr' : r ∈ if roleKeep c then roles ++ [c] else roles := hr
    by_cases hk : roleKeep c
    · rw [if_pos hk] at hr'
      rcases List.mem_append.mp hr' with h1 | h2
      · exact h r h1
      · simp only [List.mem_singleton] at h2
        subst h2
        exact hk
    · rw [if_neg hk] at hr'
      exact h r hr'

/-- Every role in the loop's output is either one of the already-emitted
roles or passes the `flush` retention test. -/
theorem parseRolesLoop_keep :
    ∀ fuel (cur : Option Role) (roles : List Role) (sec : List Str),
      (∀ r ∈ roles, roleKeep r = true) →
      ∀ r ∈ parseRolesLoop fuel cur roles sec, roleKeep r = true := by
  intro fuel
  induction fuel with
  | zero =>
    intro cur roles sec h r hr
    exact flushRole_keep cur roles h r hr
  | succ fuel ih =>
    intro cur roles sec h r hr
    cases sec with
    | nil =>
      simp only [parseRolesLoop] at hr
      exact flushRole_keep cur roles h r hr
    | cons line rest =>
      simp only [parseRolesLoop] at hr
      repeat' split at hr
      all_goals
        first
          | exact ih _ _ _ h r hr
          | exact ih _ _ _ (flushRole_keep cur roles h) r hr

/-- C6: every `Role` returned by `_parse_roles` has at least one non-empty
attribute among title, company, start, end, bullets; a candidate with all of
them empty is never emitted, at any flush point or at section end. -/
theorem C6_parse_roles_nonempty (sec : List Str) (r : Role) (hr : r ∈ parse_roles sec) :
    r.title ≠ [] ∨ optTruthy r.company = true ∨ optTruthy r.start = true ∨
      optTruthy r.end_ = true ∨ r.bullets ≠ [] := by
  have hkeep := parseRolesLoop_keep (sec.length + 1) none [] sec (by simp) r hr
  unfold roleKeep at hkeep
  simp only [Bool.or_eq_true, decide_eq_true_eq, ne_eq] at hkeep
  rcases hkeep with ((((h1 | h2) | h3) | h4) | h5)
  · exact Or.inl (by simpa using h1)
  · exact Or.inr (Or.inl h2)
  · exact Or.inr (Or.inr (Or.inl h3))
  · exact Or.inr (Or.inr (Or.inr (Or.inl h4)))
  · exact Or.inr (Or.inr (Or.inr (Or.inr (by simpa using h5))))

/-- C6 witness: the invariant applied to the role parsed from a concrete
work-experience section. -/
theorem C6_parse_roles_nonempty_witness :
    (⟨"Engineer".data, some "Acme".data, some "Berlin".data,
        some "2018-01-01".data, some "2020-06-15".data, ["Built X".data]⟩ : Role) ∈
      parse_roles ["Engineer - Acme, Berlin".data,
        "2018-01-01 - 2020-06-15".data, "• Built X".data] ∧
    (("Engineer".data : Str) ≠ [] ∨
      optTruthy (some "Acme".data) = true ∨ optTruthy (some "2018-01-01".data) = true ∨
      optTruthy (some "2020-06-15".data) = true ∨ (["Built X".data] : List Str) ≠ []) :=
  ⟨by decide,
    C6_parse_roles_nonempty
      ["Engineer - Acme, Berlin".data, "2018-01-01 - 2020-06-15".data, "• Built X".data]
      ⟨"Engineer".data, some "Acme".data, some "Berlin".data,
        some "2018-01-01".data, some "2020-06-15".data, ["Built X".data]⟩
      (by decide)⟩

/-!
 ## `PdfHandler._parse_certs` and `PdfHandler._parse_list_items`
(pdfHandler.py lines 489-519)
-/

/-- Python `str.split()` with no arguments, fuelled scanner. -/
def pySplitWsAux : Nat → Str → List Str
  | 0, _ => []
  | fuel + 1, s =>
    let s' := s.dropWhile fun c => isPySpace c
    match s' with
    | [] => []
    | _ =>
      (s'.takeWhile fun c => !isPySpace c) ::
        pySplitWsAux fuel (s'.dropWhile fun c => !isPySpace c)

/-- Python `str.split()` with no arguments (whitespace runs, no empties). -/
def pySplitWs (s : Str) : List Str := pySplitWsAux (s.length + 1) s

/-- Python `rstrip` with an explicit character set. -/
def pyRStripSet (set : Str) (s : Str) : Str :=
  (s.reverse.dropWhile fun c => set.contains c).reverse

/-- Python `strip` with an explicit character set. -/
def pyStripSet (set : Str) (s : Str) : Str := pyRStripSet set (pyLStripSet set s)

/-- Python `str.lower()` (ASCII). -/
def lowerStr (s : Str) : Str := s.map Char.toLower

/-- The case-insensitive first-occurrence de-duplication loop shared by
`_parse_list_items` and `_parse_skills_and_more`'s `uniq`. -/
def dedupCIAux : List Str → List Str → List Str
  | _, [] => []
  | seen, x :: xs =>
    if seen.contains (lowerStr x) then dedupCIAux seen xs
    else x :: dedupCIAux (lowerStr x :: seen) xs

def dedupCI (items : List Str) : List Str := dedupCIAux [] items

/-- `PdfHandler._parse_certs` (lines 489-496). -/
def parse_certs (sec : List Str) : List Str :=
  sec.foldl
    (fun items line =>
      if bulletStarts line then items ++ [bulletText line]
      else if line ≠ [] ∧ 2 ≤ (pySplitWs line).length then items ++ [pyStrip line]
      else items)
    []

/-- `PdfHandler._parse_list_items` (lines 498-519). -/
def parse_list_items (sec : List Str) : List Str :=
  let items :=
    sec.foldl
      (fun items line =>
        let l := pyStripSet [','] (pyStrip line)
        if l = [] then items
        else if bulletStarts l then items ++ [bulletText l]
        else if l.contains ',' then
          items ++ ((splitAll ',' l).filter fun x => pyStrip x ≠ []).map pyStrip
        else items ++ [l])
      []
  dedupCI items

/-- Declarative per-line contribution of `_parse_list_items`. -/
def listLineItems (line : Str) : List Str :=
  let l := pyStripSet [','] (pyStrip line)
  if l = [] then []
  else if bulletStarts l then [bulletText l]
  else if l.contains ',' then ((splitAll ',' l).filter fun x => pyStrip x ≠ []).map pyStrip
  else [l]

/-- Declarative per-line contribution of `_parse_certs`. -/
def certLineItem (line : Str) : Option Str :=
  if bulletStarts line then some (bulletText line)
  else if line ≠ [] ∧ 2 ≤ (pySplitWs line).length then some (pyStrip line)
  else none

theorem foldl_append_eq_flatMap {α β : Type} (f : α → List β) :
    ∀ (l : List α) (acc : List β),
      l.foldl (fun acc x => acc ++ f x) acc = acc ++ l.flatMap f := by
  intro l
  induction l with
  | nil => intro acc; simp
  | cons x xs ih => intro acc; simp [ih]

theorem dedupCIAux_mem_not_seen :
    ∀ (l seen : List Str) (x : Str), x ∈ dedupCIAux seen l →
      seen.contains (lowerStr x) = false := by
  intro l
  induction l with
  | nil => intro seen x hx; simp [dedupCIAux] at hx
  | cons y ys ih =>
    intro seen x hx
    unfold dedupCIAux at hx
    by_cases hy : seen.contains (lowerStr y)
    · rw [if_pos hy] at hx
      exact ih seen x hx
    · rw [if_neg hy] at hx
      rcases List.mem_cons.mp hx with rfl | hmem
      · exact Bool.eq_false_iff.mpr hy
      · have := ih (lowerStr y :: seen) x hmem
        simp only [List.contains_cons, Bool.or_eq_false_iff] at this
        exact this.2

theorem dedupCIAux_pairwise :
    ∀ (l seen : List Str),
      (dedupCIAux seen l).Pairwise fun a b => lowerStr a ≠ lowerStr b := by
  intro l
  induction l with
  | nil => intro seen; simp [dedupCIAux]
  | cons y ys ih =>
    intro seen
    unfold dedupCIAux
    by_cases hy : seen.contains (lowerStr y)
    · rw [if_pos hy]
      exact ih seen
    · rw [if_neg hy]
      refine List.Pairwise.cons ?_ (ih (lowerStr y :: seen))
      intro b hb
      have := dedupCIAux_mem_not_seen ys (lowerStr y :: seen) b hb
      simp only [List.contains_cons, Bool.or_eq_false_iff, beq_eq_false_iff_ne] at this
      exact fun hcontra => this.1 (by rw [hcontra])

/-- C9, amended.  The languages parser `_parse_list_items` keeps
bullet-stripped lines, splits comma-separated lines into trimmed items,
keeps other non-empty lines verbatim, and suppresses duplicates
case-insensitively with first occurrence preserved (its output never
contains two items equal up to case).  The certifications parser
`_parse_certs` instead keeps bullet-stripped lines and non-bullet lines of
at least two words verbatim — performing no comma splitting and no
duplicate suppression. -/
theorem C9_list_section_parsers (sec : List Str) :
    parse_list_items sec = dedupCI (sec.flatMap listLineItems) ∧
    (parse_list_items sec).Pairwise (fun a b => lowerStr a ≠ lowerStr b) ∧
    parse_certs sec = sec.filterMap certLineItem := by
  have hlist : parse_list_items sec = dedupCI (sec.flatMap listLineItems) := by
    show dedupCI (sec.foldl _ []) = dedupCI (sec.flatMap listLineItems)
    congr 1
    have hfun :
        (fun (items : List Str) (line : Str) =>
          let l := pyStripSet [','] (pyStrip line)
          if l = [] then items
          else if bulletStarts l then items ++ [bulletText l]
          else if l.contains ',' then
            items ++ ((splitAll ',' l).filter fun x => pyStrip x ≠ []).map pyStrip
          else items ++ [l]) =
          fun (items : List Str) (line : Str) => items ++ listLineItems line := by
      funext items line
      unfold listLineItems
      dsimp only
      split_ifs <;> simp
    rw [hfun, foldl_append_eq_flatMap, List.nil_append]
  refine ⟨hlist, ?_, ?_⟩
  · rw [hlist]
    exact dedupCIAux_pairwise _ []
  · show sec.foldl _ [] = _
    have hfun :
        (fun (items : List Str) (line : Str) =>
          if bulletStarts line then items ++ [bulletText line]
          else if line ≠ [] ∧ 2 ≤ (pySplitWs line).length then items ++ [pyStrip line]
          else items) =
          fun (items : List Str) (line : Str) => items ++ (certLineItem line).toList := by
      funext items line
      unfold certLineItem
      split_ifs <;> simp
    rw [hfun, foldl_append_eq_flatMap, List.nil_append,
      List.filterMap_eq_flatMap_toList]

/-- C9 counterexample: on the section `["AWS, GCP", "aws, gcp"]` the
certifications parser keeps both lines verbatim (no comma splitting, no
case-insensitive de-duplication), while the languages parser splits and
de-duplicates to `["AWS", "GCP"]` — the two parsers do not satisfy the same
contract. -/
theorem C9_counterexample :
    parse_certs ["AWS, GCP".data, "aws, gcp".data] =
      ["AWS, GCP".data, "aws, gcp".data] ∧
    parse_list_items ["AWS, GCP".data, "aws, gcp".data] =
      ["AWS".data, "GCP".data] ∧
    parse_certs ["AWS, GCP".data, "aws, gcp".data] ≠
      parse_list_items ["AWS, GCP".data, "aws, gcp".data] := by
  refine ⟨by decide, by decide, by decide⟩

/-!
 ## `PdfHandler._normalized_keywords` and the skillset hash
(pdfHandler.py lines 603-619 and 240-243)

The Python `set` accumulator is modelled as a first-occurrence de-duplicated
list: its iteration order is arbitrary in Python and every downstream
consumer (`sorted(...)` on lines 243 and 270) sorts it, so only its
membership matters.  `sha256_str` is an arbitrary function parameter `h`:
every proved property holds for any hash function, in particular SHA-256.
-/

/-- `re.sub(r"\s+", " ", x)`: collapse every maximal whitespace run to one
space (fuelled scanner). -/
def collapseWsAux : Nat → Str → Str
  | 0, _ => []
  | _ + 1, [] => []
  | fuel + 1, c :: cs =>
    if isPySpace c then ' ' :: collapseWsAux fuel (cs.dropWhile fun d => isPySpace d)
    else c :: collapseWsAux fuel cs

def collapseWs (s : Str) : Str := collapseWsAux (s.length + 1) s

/-- The per-term normalisation `re.sub(r"\s+", " ", x.strip().lower())`. -/
def normTerm (x : Str) : Str := collapseWs (lowerStr (pyStrip x))

/-- `PdfHandler._normalized_keywords`: the normalised, de-duplicated union
of all classified term lists. -/
def normalized_keywords (skills_primary skills_secondary tools clouds langs
    domains industries : List Str) : List Str :=
  (skills_primary ++ skills_secondary ++ tools ++ clouds ++ langs ++
      domains ++ industries).foldl
    (fun bag x =>
      let xl := normTerm x
      if xl ≠ [] ∧ xl ∉ bag then bag ++ [xl] else bag)
    []

/-- `"|".join(l)`. -/
def joinBar : List Str → Str
  | [] => []
  | [x] => x
  | x :: y :: xs => x ++ '|' :: joinBar (y :: xs)

/-- Python `sorted` on strings (lexicographic by character value). -/
def sortedStrs (l : List Str) : List Str := l.insertionSort (· ≤ ·)

/-- Line 243: `sha256_str("|".join(sorted(nk))) if nk else None`,
parametric in the hash function. -/
def skillset_hash (h : Str → Str) (nk : List Str) : Option Str :=
  if nk ≠ [] then some (h (joinBar (sortedStrs nk))) else none

/-- Equality of two lists as sets, decidably. -/
def setEqB (l₁ l₂ : List Str) : Bool :=
  (l₁.all fun x => l₂.contains x) && (l₂.all fun x => l₁.contains x)

theorem normalized_keywords_loop_nodup :
    ∀ (xs : List Str) (bag : List Str), bag.Nodup →
      (xs.foldl
        (fun bag x =>
          let xl := normTerm x
          if xl ≠ [] ∧ xl ∉ bag then bag ++ [xl] else bag)
        bag).Nodup := by
  intro xs
  induction xs with
  | nil => intro bag h; simpa using h
  | cons x xs ih =>
    intro bag h
    simp only [List.foldl_cons]
    by_cases hx : normTerm x ≠ [] ∧ normTerm x ∉ bag
    · rw [if_pos hx]
      refine ih _ ?_
      rw [List.nodup_append]
      refine ⟨h, List.nodup_singleton _, ?_⟩
      intro a hmem hmem2
      rw [List.mem_singleton] at hmem2
      exact hx.2 (hmem2 ▸ hmem)
    · rw [if_neg hx]
      exact ih _ h

theorem normalized_keywords_nodup (sp ss t c lg d i : List Str) :
    (normalized_keywords sp ss t c lg d i).Nodup :=
  normalized_keywords_loop_nodup _ [] List.nodup_nil

/-- Two de-duplicated keyword bags with the same members sort identically,
so they hash identically for any hash function. -/
theorem skillset_hash_of_setEq (h : Str → Str) (nk₁ nk₂ : List Str)
    (hn₁ : nk₁.Nodup) (hn₂ : nk₂.Nodup) (hset : setEqB nk₁ nk₂ = true) :
    skillset_hash h nk₁ = skillset_hash h nk₂ := by
  have hmem : ∀ a : Str, a ∈ nk₁ ↔ a ∈ nk₂ := by
    unfold setEqB at hset
    rw [Bool.and_eq_true, List.all_eq_true, List.all_eq_true] at hset
    intro a
    constructor
    · intro ha
      have := hset.1 a ha
      simpa using this
    · intro ha
      have := hset.2 a ha
      simpa using this
  have hperm : nk₁.Perm nk₂ := (List.perm_ext_iff_of_nodup hn₁ hn₂).mpr hmem
  have hsort : sortedStrs nk₁ = sortedStrs nk₂ := by
    refine List.eq_of_perm_of_sorted ?_
      (List.sorted_insertionSort _ nk₁) (List.sorted_insertionSort _ nk₂)
    exact ((List.perm_insertionSort _ nk₁).trans hperm).trans
      (List.perm_insertionSort _ nk₂).symm
  unfold skillset_hash
  rw [hsort]
  have hiff : nk₁ ≠ [] ↔ nk₂ ≠ [] := by
    rw [← List.length_pos_iff_ne_nil, ← List.length_pos_iff_ne_nil, hperm.length_eq]
  by_cases h1 : nk₁ ≠ []
  · rw [if_pos h1, if_pos (hiff.mp h1)]
  · rw [if_neg h1, if_neg fun h2 => h1 (hiff.mpr h2)]

/-- C8: the skillset hash depends only on the set of lowercased,
whitespace-collapsed, de-duplicated terms: any two 7-tuples of classified
term lists whose normalised keyword unions are equal as sets produce the
same hash for every hash function `h`, and the hash is absent exactly when
the union is empty. -/
theorem C8_skillset_hash_invariant (h : Str → Str)
    (sp₁ ss₁ t₁ c₁ lg₁ d₁ i₁ sp₂ ss₂ t₂ c₂ lg₂ d₂ i₂ : List Str)
    (hset : setEqB (normalized_keywords sp₁ ss₁ t₁ c₁ lg₁ d₁ i₁)
      (normalized_keywords sp₂ ss₂ t₂ c₂ lg₂ d₂ i₂) = true) :
    skillset_hash h (normalized_keywords sp₁ ss₁ t₁ c₁ lg₁ d₁ i₁) =
      skillset_hash h (normalized_keywords sp₂ ss₂ t₂ c₂ lg₂ d₂ i₂) ∧
    (skillset_hash h (normalized_keywords sp₁ ss₁ t₁ c₁ lg₁ d₁ i₁) = none ↔
      normalized_keywords sp₁ ss₁ t₁ c₁ lg₁ d₁ i₁ = []) := by
  constructor
  · exact skillset_hash_of_setEq h _ _
      (normalized_keywords_nodup sp₁ ss₁ t₁ c₁ lg₁ d₁ i₁)
      (normalized_keywords_nodup sp₂ ss₂ t₂ c₂ lg₂ d₂ i₂) hset
  · unfold skillset_hash
    by_cases hne : normalized_keywords sp₁ ss₁ t₁ c₁ lg₁ d₁ i₁ ≠ []
    · rw [if_pos hne]
      simp [hne]
    · rw [if_neg hne]
      rw [not_not] at hne
      simp [hne]

/-- C8 witness: reordering and re-casing the same skill terms yields the
same hash; the instance uses skills `["Lean", "SQL"]` against
`["sql", "LEAN"]` split differently across the primary/secondary lists. -/
theorem C8_skillset_hash_invariant_witness :
    setEqB
      (normalized_keywords ["Lean".data, "SQL".data] [] [] [] [] [] [])
      (normalized_keywords ["sql".data] ["LEAN".data] [] [] [] [] []) = true ∧
    skillset_hash (fun s => s)
      (normalized_keywords ["Lean".data, "SQL".data] [] [] [] [] [] []) =
      skillset_hash (fun s => s)
        (normalized_keywords ["sql".data] ["LEAN".data] [] [] [] [] []) :=
  ⟨by decide,
    (C8_skillset_hash_invariant (fun s => s)
      ["Lean".data, "SQL".data] [] [] [] [] [] []
      ["sql".data] ["LEAN".data] [] [] [] [] [] (by decide)).1⟩

/-!
 ## `parse_iso_date`, dates, and `PdfHandler._compute_yoe`
(pdfHandler.py lines 55-68 and 580-601)

`datetime` values in this code are date-valued (midnight); a date is
modelled by its proleptic-Gregorian ordinal (Python `date.toordinal`), so
`(d2 - d1).days` is the ordinal difference.  `datetime.utcnow()` is the
`nowOrd` parameter.  Durations are exact rationals; Python's float division
`days / 365.25` agrees with the rational value up to rounding noise that
the claims do not depend on.
-/

structure Date where
  year : Nat
  month : Nat
  day : Nat
deriving DecidableEq, Repr

def isLeap (y : Nat) : Bool := (y % 4 = 0 && !(y % 100 = 0)) || y % 400 = 0

def daysInMonth (y mo : Nat) : Nat :=
  match mo with
  | 1 => 31
  | 2 => if isLeap y then 29 else 28
  | 3 => 31
  | 4 => 30
  | 5 => 31
  | 6 => 30
  | 7 => 31
  | 8 => 31
  | 9 => 30
  | 10 => 31
  | 11 => 30
  | 12 => 31
  | _ => 0

def daysBeforeMonth (y mo : Nat) : Nat :=
  (List.range (mo - 1)).foldl (fun acc i => acc + daysInMonth y (i + 1)) 0

/-- `date.toordinal()`: day number in the proleptic Gregorian calendar,
with `0001-01-01` as day 1. -/
def dateOrd (dt : Date) : Nat :=
  365 * (dt.year - 1) + (dt.year - 1) / 4 + (dt.year - 1) / 400 -
    (dt.year - 1) / 100 + daysBeforeMonth dt.year dt.month + dt.day

def digitsToNat (s : Str) : Nat := s.foldl (fun n c => 10 * n + (c.toNat - 48)) 0

/-- `parse_iso_date`: first `ISO_DATE` match, then `datetime(y, mo, d)`
validity (a `ValueError` yields `None`). -/
def parse_iso_date (s : Str) : Option Date :=
  match (isoFindall s).head? with
  | none => none
  | some (ys, ms, ds) =>
    let y := digitsToNat ys
    let mo := digitsToNat ms
    let d := digitsToNat ds
    if 1 ≤ y ∧ y ≤ 9999 ∧ 1 ≤ mo ∧ mo ≤ 12 ∧ 1 ≤ d ∧ d ≤ daysInMonth y mo then
      some ⟨y, mo, d⟩
    else none

/-- The parseable start ordinals of a role list (`if r.start:` guards with
Python truthiness). -/
def startOrds (roles : List Role) : List Nat :=
  roles.filterMap fun r =>
    match r.start with
    | some s => if s ≠ [] then (parse_iso_date s).map dateOrd else none
    | none => none

/-- The parseable end ordinals of a role list. -/
def endOrds (roles : List Role) : List Nat :=
  roles.filterMap fun r =>
    match r.end_ with
    | some s => if s ≠ [] then (parse_iso_date s).map dateOrd else none
    | none => none

/-- `PdfHandler._compute_yoe`, with `datetime.utcnow()` as `nowOrd`. -/
def compute_yoe (roles : List Role) (nowOrd : Nat) : Option ℚ :=
  match startOrds roles with
  | [] => none
  | s :: ss =>
    let start : Nat := ss.foldl min s
    let e : Nat :=
      match endOrds roles with
      | [] => nowOrd
      | e0 :: es => es.foldl max e0
    let years : ℚ := ((e : ℚ) - (start : ℚ)) / (365.25 : ℚ)
    if years < 0 then none else some years

/-- Python `round` (half to even), as used by `int(round(yoe))`. -/
def pyRound (q : ℚ) : ℤ :=
  if q - ⌊q⌋ < 1 / 2 then ⌊q⌋
  else if 1 / 2 < q - ⌊q⌋ then ⌊q⌋ + 1
  else if ⌊q⌋ % 2 = 0 then ⌊q⌋ else ⌊q⌋ + 1

/-- Line 251 of `_extract_profile`: `int(round(yoe)) if yoe is not None else 0`. -/
def stored_yoe (roles : List Role) (nowOrd : Nat) : ℤ :=
  match compute_yoe roles nowOrd with
  | some y => pyRound y
  | none => 0

theorem foldl_min_le (ss : List Nat) (s : Nat) :
    ss.foldl min s ≤ s ∧ ∀ x ∈ ss, ss.foldl min s ≤ x := by
  induction ss generalizing s with
  | nil => simp
  | cons y ys ih =>
    simp only [List.foldl_cons, List.mem_cons]
    refine ⟨le_trans (ih (min s y)).1 (min_le_left s y), ?_⟩
    intro x hx
    rcases hx with rfl | hx
    · exact le_trans (ih (min s x)).1 (min_le_right s x)
    · exact (ih (min s y)).2 x hx

theorem foldl_min_mem (ss : List Nat) (s : Nat) :
    ss.foldl min s = s ∨ ss.foldl min s ∈ ss := by
  induction ss generalizing s with
  | nil => simp
  | cons y ys ih =>
    simp only [List.foldl_cons, List.mem_cons]
    rcases ih (min s y) with h | h
    · rcases min_choice s y with hm | hm
      · exact Or.inl (h.trans hm)
      · exact Or.inr (Or.inl (h.trans hm))
    · exact Or.inr (Or.inr h)

theorem foldl_max_le (ss : List Nat) (s : Nat) :
    s ≤ ss.foldl max s ∧ ∀ x ∈ ss, x ≤ ss.foldl max s := by
  induction ss generalizing s with
  | nil => simp
  | cons y ys ih =>
    simp only [List.foldl_cons, List.mem_cons]
    refine ⟨le_trans (le_max_left s y) (ih (max s y)).1, ?_⟩
    intro x hx
    rcases hx with rfl | hx
    · exact le_trans (le_max_right s x) (ih (max s x)).1
    · exact (ih (max s y)).2 x hx

theorem foldl_max_mem (ss : List Nat) (s : Nat) :
    ss.foldl max s = s ∨ ss.foldl max s ∈ ss := by
  induction ss generalizing s with
  | nil => simp
  | cons y ys ih =>
    simp only [List.foldl_cons, List.mem_cons]
    rcases ih (max s y) with h | h
    · rcases max_choice s y with hm | hm
      · exact Or.inl (h.trans hm)
      · exact Or.inr (Or.inl (h.trans hm))
    · exact Or.inr (Or.inr h)

/-- C7: if no role has a parseable ISO start date, `_compute_yoe` is absent
and the profile stores `yoe = 0`; otherwise the duration is taken over the
window from the earliest parseable start to the latest parseable end (or
now when no end parses) as `days / 365.25`; a negative duration yields
absent (stored 0), and a non-negative one is returned and stored rounded. -/
theorem C7_compute_yoe_spec (roles : List Role) (nowOrd : Nat) :
    (startOrds roles = [] →
      compute_yoe roles nowOrd = none ∧ stored_yoe roles nowOrd = 0) ∧
    (startOrds roles ≠ [] →
      ∃ s, s ∈ startOrds roles ∧ (∀ x ∈ startOrds roles, s ≤ x) ∧
      ∃ e, ((endOrds roles = [] ∧ e = nowOrd) ∨
            (e ∈ endOrds roles ∧ ∀ x ∈ endOrds roles, x ≤ e)) ∧
        (((e : ℚ) - (s : ℚ)) / (365.25 : ℚ) < 0 →
          compute_yoe roles nowOrd = none ∧ stored_yoe roles nowOrd = 0) ∧
        (0 ≤ ((e : ℚ) - (s : ℚ)) / (365.25 : ℚ) →
          compute_yoe roles nowOrd = some (((e : ℚ) - (s : ℚ)) / (365.25 : ℚ)) ∧
          stored_yoe roles nowOrd =
            pyRound (((e : ℚ) - (s : ℚ)) / (365.25 : ℚ)))) := by
  constructor
  · intro hnil
    unfold stored_yoe compute_yoe
    rw [hnil]
    exact ⟨rfl, rfl⟩
  · intro hne
    obtain ⟨s0, ss, hss⟩ : ∃ s0 ss, startOrds roles = s0 :: ss := by
      cases h : startOrds roles with
      | nil => exact absurd h hne
      | cons a l => exact ⟨a, l, rfl⟩
    have hsmem : ss.foldl min s0 ∈ startOrds roles := by
      rw [hss]
      rcases foldl_min_mem ss s0 with h | h
      · rw [h]; exact List.mem_cons_self _ _
      · exact List.mem_cons_of_mem _ h
    have hsle : ∀ x ∈ startOrds roles, ss.foldl min s0 ≤ x := by
      rw [hss]
      intro x hx
      rcases List.mem_cons.mp hx with rfl | hx
      · exact (foldl_min_le ss x).1
      · exact (foldl_min_le ss s0).2 x hx
    cases he : endOrds roles with
    | nil =>
      refine ⟨ss.foldl min s0, hsmem, hsle, nowOrd, Or.inl ⟨rfl, rfl⟩, ?_, ?_⟩
      · intro hneg
        unfold stored_yoe compute_yoe
        rw [hss, he]
        simp only [if_pos hneg]
        exact ⟨trivial, trivial⟩
      · intro hpos
        unfold stored_yoe compute_yoe
        rw [hss, he]
        simp only [if_neg (not_lt.mpr hpos)]
        exact ⟨trivial, trivial⟩
    | cons e0 es =>
      have hemem : es.foldl max e0 ∈ e0 :: es := by
        rcases foldl_max_mem es e0 with h | h
        · rw [h]; exact List.mem_cons_self _ _
        · exact List.mem_cons_of_mem _ h
      have hele : ∀ x ∈ e0 :: es, x ≤ es.foldl max e0 := by
        intro x hx
        rcases List.mem_cons.mp hx with rfl | hx
        · exact (foldl_max_le es x).1
        · exact (foldl_max_le es e0).2 x hx
      refine ⟨ss.foldl min s0, hsmem, hsle, es.foldl max e0, Or.inr ⟨hemem, hele⟩, ?_, ?_⟩
      · intro hneg
        unfold stored_yoe compute_yoe
        rw [hss, he]
        simp only [if_pos hneg]
        exact ⟨trivial, trivial⟩
      · intro hpos
        unfold stored_yoe compute_yoe
        rw [hss, he]
        simp only [if_neg (not_lt.mpr hpos)]
        exact ⟨trivial, trivial⟩

/-- Sample role list for the C7 witness: one role spanning 2015-01-01 to
2020-01-01 (1826 days, 4.999… years). -/
def yoeSampleRoles : List Role :=
  [⟨"Engineer".data, none, none, some "2015-01-01".data,
    some "2020-01-01".data, []⟩]

/-- C7 witness: the theorem applied at `yoeSampleRoles` with `now` ordinal
737790 — its start list is non-empty, so the duration window
characterisation holds there. -/
theorem C7_compute_yoe_spec_witness :
    startOrds yoeSampleRoles ≠ [] ∧
    (∃ s, s ∈ startOrds yoeSampleRoles ∧ (∀ x ∈ startOrds yoeSampleRoles, s ≤ x) ∧
      ∃ e, ((endOrds yoeSampleRoles = [] ∧ e = 737790) ∨
            (e ∈ endOrds yoeSampleRoles ∧ ∀ x ∈ endOrds yoeSampleRoles, x ≤ e)) ∧
        (((e : ℚ) - (s : ℚ)) / (365.25 : ℚ) < 0 →
          compute_yoe yoeSampleRoles 737790 = none ∧
          stored_yoe yoeSampleRoles 737790 = 0) ∧
        (0 ≤ ((e : ℚ) - (s : ℚ)) / (365.25 : ℚ) →
          compute_yoe yoeSampleRoles 737790 =
            some (((e : ℚ) - (s : ℚ)) / (365.25 : ℚ)) ∧
          stored_yoe yoeSampleRoles 737790 =
            pyRound (((e : ℚ) - (s : ℚ)) / (365.25 : ℚ)))) :=
  ⟨by decide, (C7_compute_yoe_spec yoeSampleRoles 737790).2 (by decide)⟩

/-!
 ## The profile assembly of `PdfHandler._extract_profile`
(pdfHandler.py lines 240-273)

`extract_profile_assemble` transcribes the profile dictionary construction,
taking the intermediate extractor outputs as arguments (so the proved
invariants hold for every profile `_extract_profile` can return, whatever
the heuristic extractors produced from the document text).  `sha256_str` is
again the parameter `h`, and `datetime.utcnow()` the parameter `nowOrd`.
-/

structure EducationItem where
  institution : Str
  degree : Option Str := none
  start : Option Str := none
  end_ : Option Str := none
  details : Option Str := none
deriving DecidableEq, Repr

/-- Python `xs or None` for list-valued fields. -/
def orNone {α : Type} (l : List α) : Option (List α) :=
  if l.isEmpty then none else some l

structure Profile where
  full_name : Option Str
  email : Option Str
  phone : Option Str
  city : Option Str
  country : Option Str
  yoe : ℤ
  current_title : Option Str
  seniority : Option Str
  work_auth : Option Str
  remote_pref : Option Str
  notice : Option Str
  salary : Option Str
  linkedin_url : Option Str
  portfolio_url : Option Str
  langs : Option (List Str)
  skills_primary : Option (List Str)
  skills_secondary : Option (List Str)
  tools : Option (List Str)
  domains : Option (List Str)
  industries : Option (List Str)
  clouds : Option (List Str)
  roles : Option (List Role)
  education : Option (List EducationItem)
  certs : Option (List Str)
  normalized_keywords : Option (List Str)
  skillset_hash : Option Str

/-- Lines 240-272: keyword normalisation, hashing, and the profile
dictionary literal. -/
def extract_profile_assemble (h : Str → Str)
    (full_name email phone city country current_title seniority linkedin
      portfolio : Option Str)
    (langs skills_primary skills_secondary tools domains industries
      clouds : List Str)
    (roles : List Role) (education : List EducationItem) (certs : List Str)
    (nowOrd : Nat) : Profile :=
  let nk := normalized_keywords skills_primary skills_secondary tools clouds
    langs domains industries
  let hash := skillset_hash h nk
  { full_name := full_name
    email := email
    phone := phone
    city := city
    country := country
    yoe := stored_yoe roles nowOrd
    current_title := current_title
    seniority := seniority
    work_auth := none
    remote_pref := none
    notice := none
    salary := none
    linkedin_url := linkedin
    portfolio_url := portfolio
    langs := orNone langs
    skills_primary := orNone skills_primary
    skills_secondary := orNone skills_secondary
    tools := orNone tools
    domains := orNone domains
    industries := orNone industries
    clouds := orNone clouds
    roles := orNone roles
    education := orNone education
    certs := orNone certs
    normalized_keywords := orNone (sortedStrs nk)
    skillset_hash := hash }

/-- A list-valued profile field is absent or non-empty. -/
def optListNonempty {α : Type} (o : Option (List α)) : Prop :=
  ∀ l, o = some l → l ≠ []

theorem orNone_nonempty {α : Type} (l : List α) : optListNonempty (orNone l) := by
  intro l' hl'
  unfold orNone at hl'
  by_cases h : l.isEmpty
  · rw [if_pos h] at hl'
    cases hl'
  · rw [if_neg h] at hl'
    cases hl'
    intro hnil
    rw [hnil] at h
    exact h rfl

theorem sortedStrs_eq_nil_iff (l : List Str) : sortedStrs l = [] ↔ l = [] := by
  unfold sortedStrs
  constructor
  · intro h
    have := List.perm_insertionSort (α := Str) (· ≤ ·) l
    rw [h] at this
    exact (this.symm.eq_nil)
  · intro h
    rw [h]
    rfl

/-- C10: in every assembled profile, each list-valued field is either
absent or a non-empty list (an empty extraction result is never stored as
an empty list), and the skillset hash is absent exactly when the
normalized-keyword field is absent. -/
theorem C10_profile_fields (h : Str → Str)
    (full_name email phone city country current_title seniority linkedin
      portfolio : Option Str)
    (langs skills_primary skills_secondary tools domains industries
      clouds : List Str)
    (roles : List Role) (education : List EducationItem) (certs : List Str)
    (nowOrd : Nat) :
    let p := extract_profile_assemble h full_name email phone city country
      current_title seniority linkedin portfolio langs skills_primary
      skills_secondary tools domains industries clouds roles education certs
      nowOrd
    optListNonempty p.langs ∧ optListNonempty p.skills_primary ∧
    optListNonempty p.skills_secondary ∧ optListNonempty p.tools ∧
    optListNonempty p.domains ∧ optListNonempty p.industries ∧
    optListNonempty p.clouds ∧ optListNonempty p.roles ∧
    optListNonempty p.education ∧ optListNonempty p.certs ∧
    optListNonempty p.normalized_keywords ∧
    (p.skillset_hash = none ↔ p.normalized_keywords = none) := by
  intro p
  refine ⟨orNone_nonempty langs, orNone_nonempty skills_primary,
    orNone_nonempty skills_secondary, orNone_nonempty tools,
    orNone_nonempty domains, orNone_nonempty industries,
    orNone_nonempty clouds, orNone_nonempty roles,
    orNone_nonempty education, orNone_nonempty certs,
    orNone_nonempty (sortedStrs (normalized_keywords skills_primary
      skills_secondary tools clouds langs domains industries)), ?_⟩
  show skillset_hash h (normalized_keywords skills_primary skills_secondary
      tools clouds langs domains industries) = none ↔
    orNone (sortedStrs (normalized_keywords skills_primary skills_secondary
      tools clouds langs domains industries)) = none
  unfold skillset_hash orNone
  by_cases hnk : normalized_keywords skills_primary skills_secondary tools
      clouds langs domains industries = []
  · rw [if_neg (fun hcon => hcon hnk),
      if_pos (by rw [(sortedStrs_eq_nil_iff _).mpr hnk]; rfl)]
    simp
  · rw [if_pos hnk, if_neg (fun hcon => hnk ((sortedStrs_eq_nil_iff _).mp
      (List.isEmpty_iff.mp (by simpa using hcon))))]
    simp

/-- C10 witness: the invariant applied at a concrete argument tuple with
one skill and no other extracted data. -/
theorem C10_profile_fields_witness :
    optListNonempty (extract_profile_assemble (fun s => s) none none none none
      none none none none none [] ["Lean".data] [] [] [] [] [] [] [] [] 0).langs ∧
    ((extract_profile_assemble (fun s => s) none none none none
        none none none none none [] ["Lean".data] [] [] [] [] [] [] [] [] 0).skillset_hash
        = none ↔
      (extract_profile_assemble (fun s => s) none none none none
        none none none none none [] ["Lean".data] [] [] [] [] [] [] [] [] 0).normalized_keywords
        = none) :=
  ⟨(C10_profile_fields (fun s => s) none none none none none none none none
      none [] ["Lean".data] [] [] [] [] [] [] [] [] 0).1,
    (C10_profile_fields (fun s => s) none none none none none none none none
      none [] ["Lean".data] [] [] [] [] [] [] [] [] 0).2.2.2.2.2.2.2.2.2.2.2⟩

/-!
 ## `QdrantHandler.parse_nl_filters` (qDrantHandler.py lines 221-298)

Each regex of the translator is embedded as an explicit scanner with the
backtracking the pattern requires; searches are leftmost-first, literal
comparisons are case-insensitive exactly where the source passes `re.I`.
The produced filter dictionary is modelled by a structure with one field
per key the function can set.
-/

/-- Case-insensitive literal match of `w` at the head of `t`, returning the
remainder. -/
def stripLitCI : Str → Str → Option Str
  | [], t => some t
  | _, [] => none
  | w :: ws, c :: cs => if c.toLower = w.toLower then stripLitCI ws cs else none

/-- `\bw\b`-style tail: literal `w` (case-insensitive) followed by a word
boundary. -/
def matchWordCI (w t : Str) : Bool :=
  match stripLitCI w t with
  | some rest => boundaryAfter rest
  | none => false

/-- A `\b` between two optional characters. -/
def boundaryBetween (l n : Option Char) : Bool :=
  match l, n with
  | some a, some b => isWordChar a != isWordChar b
  | some a, none => isWordChar a
  | none, some b => isWordChar b
  | none, none => false

/-- Word-boundary search `re.search(rf"\b{w}\b", s, re.I)` truthiness. -/
def wordSearchAux : Nat → Option Char → Str → Str → Bool
  | 0, _, _, _ => false
  | _ + 1, _, _, [] => false
  | fuel + 1, prev, w, c :: cs =>
    (boundaryBefore prev && matchWordCI w (c :: cs)) ||
      wordSearchAux fuel (some c) w cs

def wordSearch (w s : Str) : Bool := wordSearchAux (s.length + 1) none w s

/-!
 ### `YOE_PAT = (?P<num>\d{1,2})\s*\+?\s*(?:years|yrs|yoe)\b` (re.I)
-/

def digitVal (c : Char) : Nat := c.toNat - 48

/-- The `\s*\+?\s*(?:years|yrs|yoe)\b` tail (the three character classes
are disjoint, so the greedy scan needs no backtracking except across the
word alternation). -/
def yoeTail (t : Str) : Bool :=
  let t₁ := t.dropWhile fun c => isPySpace c
  let t₂ := match t₁ with
    | '+' :: r => r
    | _ => t₁
  let t₃ := t₂.dropWhile fun c => isPySpace c
  matchWordCI "years".data t₃ || matchWordCI "yrs".data t₃ || matchWordCI "yoe".data t₃

/-- Try `YOE_PAT` anchored at the current position (`\d{1,2}` greedy:
two digits preferred over one). -/
def matchYoeAt : Str → Option Nat
  | [] => none
  | c₁ :: rest₁ =>
    if c₁.isDigit then
      match rest₁ with
      | c₂ :: rest₂ =>
        if c₂.isDigit && yoeTail rest₂ then some (10 * digitVal c₁ + digitVal c₂)
        else if yoeTail rest₁ then some (digitVal c₁)
        else none
      | [] => if yoeTail rest₁ then some (digitVal c₁) else none
    else none

def yoeSearchAux : Nat → Str → Option Nat
  | 0, _ => none
  | _ + 1, [] => none
  | fuel + 1, c :: cs =>
    match matchYoeAt (c :: cs) with
    | some n => some n
    | none => yoeSearchAux fuel cs

/-- `YOE_PAT.search(qt)`, returning `int(m.group("num"))`. -/
def yoeSearch (s : Str) : Option Nat := yoeSearchAux (s.length + 1) s

/-!
 ### Seniority (lines 262-266)
-/

def SENIORITY_WORDS : List Str :=
  ["intern".data, "junior".data, "jr".data, "associate".data, "mid".data,
   "senior".data, "sr".data, "lead".data, "principal".data, "staff".data,
   "manager".data, "head".data, "director".data, "vp".data, "chief".data,
   "cto".data, "cpo".data, "coo".data, "ceo".data]

/-- `{"jr": "junior", "sr": "senior"}.get(w.lower(), w.lower())`. -/
def normSeniority (w : Str) : Str :=
  if lowerStr w = "jr".data then "junior".data
  else if lowerStr w = "sr".data then "senior".data
  else lowerStr w

/-- First whole-word seniority keyword found in the query. -/
def seniorityOf (qt : Str) : Option Str :=
  (SENIORITY_WORDS.find? fun w => wordSearch w qt).map normSeniority

/-!
 ### `CITY_COUNTRY_PAT = \b(?:in|from|at)\s+(?P<place>[A-Za-z .'-]+)\b` (re.I)
-/

def placeClass (c : Char) : Bool :=
  c.isAlpha || c = ' ' || c = '.' || c = '\'' || c = '-'

/-- Backtrack the greedy `place` group down to the longest non-empty prefix
of length `j` of `u` whose end sits on a `\b`. -/
def tryPlaceLen (u : Str) : Nat → Option Str
  | 0 => none
  | j + 1 =>
    if boundaryBetween (u.get? j) (u.get? (j + 1)) then some (u.take (j + 1))
    else tryPlaceLen u j

/-- Backtrack the greedy `\s+` down from `i` whitespace characters (at
least one), matching the `place` group after them. -/
def tryPlaceSpaces (rest₀ : Str) : Nat → Option Str
  | 0 => none
  | i + 1 =>
    let u := rest₀.drop (i + 1)
    let run := u.takeWhile placeClass
    match tryPlaceLen u run.length with
    | some p => some p
    | none => tryPlaceSpaces rest₀ i

/-- Try `CITY_COUNTRY_PAT` anchored at the current position (the three
keyword alternatives start with distinct letters, so at most one applies). -/
def cityCountryAt (prev : Option Char) (s : Str) : Option Str :=
  if boundaryBefore prev then
    match (stripLitCI "in".data s).orElse
        (fun _ => (stripLitCI "from".data s).orElse
          (fun _ => stripLitCI "at".data s)) with
    | some rest₀ => tryPlaceSpaces rest₀ (rest₀.takeWhile fun c => isPySpace c).length
    | none => none
  else none

def cityCountrySearchAux : Nat → Option Char → Str → Option Str
  | 0, _, _ => none
  | _ + 1, _, [] => none
  | fuel + 1, prev, c :: cs =>
    match cityCountryAt prev (c :: cs) with
    | some p => some p
    | none => cityCountrySearchAux fuel (some c) cs

/-- `CITY_COUNTRY_PAT.search(qt)`, returning `m.group("place")`. -/
def cityCountrySearch (s : Str) : Option Str := cityCountrySearchAux (s.length + 1) none s

/-!
 ### `FILE_PAT = \bfile\s*:\s*(?P<fname>[\w.\- ]+\.pdf)\b` (re.I)
-/

def fnameClass (c : Char) : Bool := isWordChar c || c = '.' || c = '-' || c = ' '

/-- Backtrack the greedy `fname` group down to the longest prefix of `u`
of length `j` ending in `.pdf` (case-insensitive) on a `\b`. -/
def tryFnameLen (u : Str) : Nat → Option Str
  | 0 => none
  | j + 1 =>
    if 5 ≤ j + 1 &&
        (lowerStr ((u.take (j + 1)).drop (j + 1 - 4)) = ".pdf".data) &&
        boundaryBetween (u.get? j) (u.get? (j + 1)) then
      some (u.take (j + 1))
    else tryFnameLen u j

/-- Try `FILE_PAT` anchored at the current position. -/
def fileAt (prev : Option Char) (s : Str) : Option Str :=
  if boundaryBefore prev then
    match stripLitCI "file".data s with
    | some rest₀ =>
      match (rest₀.dropWhile fun c => isPySpace c) with
      | ':' :: rest₁ =>
        let u := rest₁.dropWhile fun c => isPySpace c
        let run := u.takeWhile fnameClass
        tryFnameLen u run.length
      | _ => none
    | none => none
  else none

def fileSearchAux : Nat → Option Char → Str → Option Str
  | 0, _, _ => none
  | _ + 1, _, [] => none
  | fuel + 1, prev, c :: cs =>
    match fileAt prev (c :: cs) with
    | some p => some p
    | none => fileSearchAux fuel (some c) cs

/-- `FILE_PAT.search(qt)`, returning `m.group("fname")`. -/
def fileSearch (s : Str) : Option Str := fileSearchAux (s.length + 1) none s

/-!
 ### Skill-term extraction (lines 287-296)
-/

def skillClass (c : Char) : Bool :=
  c.isAlphanum || c = '+' || c = '/' || c = '#' || c = '.' || c = ',' ||
    c = ' ' || c = '&' || c = '-'

/-- Backtrack the `\s+` of `rf"{kw}\s+([A-Za-z0-9+/#., &\-]+)"` down from
`i` whitespace characters, taking the greedy class run after them (the
group has no trailing constraint, so no further backtracking). -/
def skillTryI (rest₀ : Str) : Nat → Option Str
  | 0 => none
  | i + 1 =>
    let run := (rest₀.drop (i + 1)).takeWhile skillClass
    if run ≠ [] then some run else skillTryI rest₀ i

def skillSearchAux : Nat → Str → Str → Option Str
  | 0, _, _ => none
  | _ + 1, _, [] => none
  | fuel + 1, kw, c :: cs =>
    match (stripLitCI kw (c :: cs)).bind
        (fun rest₀ => skillTryI rest₀ (rest₀.takeWhile fun d => isPySpace d).length) with
    | some g => some g
    | none => skillSearchAux fuel kw cs

/-- `re.compile(rf"{kw}\s+([A-Za-z0-9+/#., &\-]+)", re.I).search(qt)`,
returning `mm.group(1)`. -/
def skillSearch (kw s : Str) : Option Str := skillSearchAux (s.length + 1) kw s

/-- One stop word of `\b(?:for|in|of|and then|who|that|where)\b` (re.I)
anchored at the current position. -/
def stopWordAt (prev : Option Char) (t : Str) : Bool :=
  boundaryBefore prev &&
    (matchWordCI "for".data t || matchWordCI "in".data t || matchWordCI "of".data t ||
      matchWordCI "and then".data t || matchWordCI "who".data t ||
      matchWordCI "that".data t || matchWordCI "where".data t)

/-- `re.split(stop_pattern, chunk, 1)[0]`: the prefix before the first
stop-word match. -/
def stopSplitAux : Nat → Option Char → Str → Str
  | 0, _, t => t
  | _ + 1, _, [] => []
  | fuel + 1, prev, c :: cs =>
    if stopWordAt prev (c :: cs) then []
    else c :: stopSplitAux fuel (some c) cs

def stopSplit (chunk : Str) : Str := stopSplitAux (chunk.length + 1) none chunk

/-- `re.split(r",|/| and ", chunk)` (case-sensitive, all occurrences). -/
def sepSplit : Nat → Str → List Str
  | 0, s => [s]
  | _ + 1, [] => [[]]
  | fuel + 1, c :: cs =>
    if c = ',' then [] :: sepSplit fuel cs
    else if c = '/' then [] :: sepSplit fuel cs
    else if c = ' ' && "and ".data.isPrefixOf cs then [] :: sepSplit fuel (cs.drop 4)
    else
      match sepSplit fuel cs with
      | [] => [[c]]
      | p :: ps => (c :: p) :: ps

def skillKws : List Str :=
  ["with".data, "having".data, "skills".data, "skill".data,
   "expert in".data, "using".data]

/-- The terms one trigger phrase contributes: the first match of its
pattern, cut at the first stop word, split on commas/slashes/" and ",
trimmed of `" ,.&"`, keeping pieces whose whitespace-strip is non-empty. -/
def skillTermsOf (kw qt : Str) : List Str :=
  match skillSearch kw qt with
  | none => []
  | some chunk =>
    let chunk₂ := stopSplit chunk
    ((sepSplit (chunk₂.length + 1) chunk₂).filter fun s => pyStrip s ≠ []).map
      (pyStripSet " ,.&".data)

structure FilterSpec where
  yoe_gte : Option Nat := none
  seniority_eq : Option Str := none
  city_eq : Option Str := none
  country_eq : Option Str := none
  should : Option (List (Str × Str)) := none
  file_name_eq : Option Str := none
  normalized_keywords_any : Option (List Str) := none
deriving DecidableEq, Repr

/-- `QdrantHandler.parse_nl_filters`. -/
def parse_nl_filters (qt : Str) : FilterSpec :=
  let skills := skillKws.foldl (fun acc kw => acc ++ skillTermsOf kw qt) []
  let loc :=
    match cityCountrySearch qt with
    | none => ((none : Option Str), (none : Option Str),
        (none : Option (List (Str × Str))))
    | some p =>
      let place := pyStrip p
      if ',' ∈ place then
        match splitFirst ',' place with
        | some (q0, q1) =>
          let cityv := pyStrip q0
          let countryv := pyStrip q1
          (if cityv ≠ [] then some cityv else none,
           if countryv ≠ [] then some countryv else none, none)
        | none => (none, none, none)
      else
        (none, none, some [("city".data, place), ("country".data, place)])
  { yoe_gte := yoeSearch qt
    seniority_eq := seniorityOf qt
    city_eq := loc.1
    country_eq := loc.2.1
    should := loc.2.2
    file_name_eq := (fileSearch qt).map pyStrip
    normalized_keywords_any :=
      if skills ≠ [] then some (skills.map lowerStr) else none }

/-!
 ### C1: the location rule

The `place` capture class `[A-Za-z .'-]` cannot match a comma, so the
comma branch of lines 272-277 is unreachable: every successful location
match takes the should-bucket branch, and the top-level city/country
equality predicates are never produced.
-/

theorem tryPlaceLen_class (u : Str) :
    ∀ n p, tryPlaceLen u n = some p → n ≤ (u.takeWhile placeClass).length →
      ∀ c ∈ p, placeClass c := by
  intro n
  induction n with
  | zero => intro p hp _; simp [tryPlaceLen] at hp
  | succ n ih =>
    intro p hp hn
    unfold tryPlaceLen at hp
    by_cases hb : boundaryBetween (u.get? n) (u.get? (n + 1))
    · rw [if_pos hb] at hp
      cases hp
      intro c hc
      have htw : u.takeWhile placeClass = u.take (u.takeWhile placeClass).length := by
        exact List.prefix_iff_eq_take.mp (List.takeWhile_prefix _)
      have hsub : c ∈ u.take (u.takeWhile placeClass).length := by
        have : u.take (n + 1) =
            (u.take (u.takeWhile placeClass).length).take (n + 1) := by
          rw [List.take_take, min_eq_left hn]
        rw [this] at hc
        exact List.take_subset _ _ hc
      rw [← htw] at hsub
      exact List.mem_takeWhile_imp hsub
    · rw [if_neg hb] at hp
      exact ih p hp (by omega)

theorem tryPlaceSpaces_class (rest₀ : Str) :
    ∀ i p, tryPlaceSpaces rest₀ i = some p → ∀ c ∈ p, placeClass c := by
  intro i
  induction i with
  | zero => intro p hp; simp [tryPlaceSpaces] at hp
  | succ i ih =>
    intro p hp
    unfold tryPlaceSpaces at hp
    dsimp only at hp
    cases htl : tryPlaceLen (rest₀.drop (i + 1))
        ((rest₀.drop (i + 1)).takeWhile placeClass).length with
    | some q =>
      rw [htl] at hp
      cases hp
      exact tryPlaceLen_class _ _ p htl (le_refl _)
    | none =>
      rw [htl] at hp
      exact ih p hp

theorem cityCountryAt_class (prev : Option Char) (s : Str) (p : Str)
    (hp : cityCountryAt prev s = some p) : ∀ c ∈ p, placeClass c := by
  unfold cityCountryAt at hp
  by_cases hb : boundaryBefore prev
  · rw [if_pos hb] at hp
    cases hkw : (stripLitCI "in".data s).orElse
        (fun _ => (stripLitCI "from".data s).orElse
          (fun _ => stripLitCI "at".data s)) with
    | some rest₀ =>
      rw [hkw] at hp
      exact tryPlaceSpaces_class rest₀ _ p hp
    | none =>
      rw [hkw] at hp
      cases hp
  · rw [if_neg hb] at hp
    cases hp

theorem cityCountrySearchAux_class :
    ∀ fuel prev s p, cityCountrySearchAux fuel prev s = some p →
      ∀ c ∈ p, placeClass c := by
  intro fuel
  induction fuel with
  | zero => intro prev s p hp; simp [cityCountrySearchAux] at hp
  | succ fuel ih =>
    intro prev s p hp
    cases s with
    | nil => simp [cityCountrySearchAux] at hp
    | cons c cs =>
      unfold cityCountrySearchAux at hp
      cases hat : cityCountryAt prev (c :: cs) with
      | some q =>
        rw [hat] at hp
        cases hp
        exact cityCountryAt_class prev (c :: cs) p hat
      | none =>
        rw [hat] at hp
        exact ih (some c) cs p hp

theorem mem_pyStrip_subset (s : Str) (c : Char) (hc : c ∈ pyStrip s) : c ∈ s := by
  unfold pyStrip pyRStrip pyLStrip at hc
  rw [List.mem_reverse] at hc
  have h1 := (List.dropWhile_sublist (l := (s.dropWhile fun c => isPySpace c).reverse)
    (p := fun c => isPySpace c)).mem hc
  rw [List.mem_reverse] at h1
  exact (List.dropWhile_sublist (l := s) (p := fun c => isPySpace c)).mem h1

/-- C1: the comma branch of the location rule is dead code — the `place`
class cannot capture a comma, so for every query the translator never
emits top-level city/country equality predicates — and at the claim's own
example query the output is a should-bucket with `city = country =
"Dublin"` (plus `seniority = senior`, `yoe ≥ 5`, and the skill chunk
`"5+ years experience"`), not `city=Dublin, country=Ireland`. -/
theorem C1_location_comma_branch_dead :
    (∀ qt : Str, (parse_nl_filters qt).city_eq = none ∧
      (parse_nl_filters qt).country_eq = none) ∧
    parse_nl_filters
        "Need a senior developer in Dublin, Ireland with 5+ years experience".data =
      { yoe_gte := some 5
        seniority_eq := some "senior".data
        city_eq := none
        country_eq := none
        should := some [("city".data, "Dublin".data), ("country".data, "Dublin".data)]
        file_name_eq := none
        normalized_keywords_any := some ["5+ years experience".data] } := by
  constructor
  · intro qt
    unfold parse_nl_filters
    cases hcc : cityCountrySearch qt with
    | none => exact ⟨rfl, rfl⟩
    | some p =>
      have hnc : ¬ (',' ∈ pyStrip p) := by
        intro hmem
        have := cityCountrySearchAux_class (qt.length + 1) none qt p hcc ','
          (mem_pyStrip_subset p ',' hmem)
        simp [placeClass] at this
      simp only [if_neg hnc]
      exact ⟨trivial, trivial⟩
  · decide

/-!
 ### C2: skill-trigger accumulation
-/

/-- C2, amended.  The skill extraction is cumulative across trigger
phrases, not first-match-wins: whenever a trigger phrase of the fixed list
contributes a non-empty term list (from the first match of that phrase in
the query), those terms appear — lowercased, contiguously, in trigger-list
order — inside the `normalized_keywords` any-predicate. -/
theorem C2_skill_triggers_cumulative (qt kw : Str) (hkw : kw ∈ skillKws)
    (hne : skillTermsOf kw qt ≠ []) :
    ∃ l, (parse_nl_filters qt).normalized_keywords_any = some l ∧
      ((skillTermsOf kw qt).map lowerStr).IsInfix l := by
  have hskills : skillKws.foldl (fun acc k => acc ++ skillTermsOf k qt) [] =
      skillKws.flatMap fun k => skillTermsOf k qt := by
    rw [foldl_append_eq_flatMap]
    simp
  have hinfix : (skillTermsOf kw qt).IsInfix
      (skillKws.flatMap fun k => skillTermsOf k qt) := by
    obtain ⟨s, t, hst⟩ := List.append_of_mem hkw
    refine ⟨s.flatMap fun k => skillTermsOf k qt,
      t.flatMap fun k => skillTermsOf k qt, ?_⟩
    rw [hst]
    simp
  have hne2 : skillKws.foldl (fun acc k => acc ++ skillTermsOf k qt) [] ≠ [] := by
    rw [hskills]
    intro hnil
    rw [hnil] at hinfix
    exact hne (List.sublist_nil.mp hinfix.sublist)
  refine ⟨(skillKws.foldl (fun acc k => acc ++ skillTermsOf k qt) []).map lowerStr,
    ?_, ?_⟩
  · show (if skillKws.foldl (fun acc k => acc ++ skillTermsOf k qt) [] ≠ []
        then some ((skillKws.foldl (fun acc k => acc ++ skillTermsOf k qt) []).map
          lowerStr)
        else none) = _
    rw [if_pos hne2]
  · rw [hskills]
    obtain ⟨x, y, hxy⟩ := hinfix
    exact ⟨x.map lowerStr, y.map lowerStr, by rw [← hxy]; simp⟩

/-- C2 witness: in the query `"with python using java"` both `"with"` and
`"using"` match; the theorem applied to the later trigger `"using"` shows
its term `"java"` reaches the any-predicate. -/
theorem C2_skill_triggers_cumulative_witness :
    "using".data ∈ skillKws ∧
    skillTermsOf "using".data "with python using java".data ≠ [] ∧
    (∃ l, (parse_nl_filters "with python using java".data).normalized_keywords_any =
        some l ∧
      ((skillTermsOf "using".data "with python using java".data).map
        lowerStr).IsInfix l) :=
  ⟨by decide, by decide,
    C2_skill_triggers_cumulative "with python using java".data "using".data
      (by decide) (by decide)⟩

/-- C2 counterexample: on `"with python using java"` the later trigger
phrase `"using"` contributes the term `"java"` in addition to the first
phrase's `"python using java"` — extraction is not first-match-wins. -/
theorem C2_counterexample :
    (parse_nl_filters "with python using java".data).normalized_keywords_any =
      some ["python using java".data, "java".data] ∧
    (parse_nl_filters "with python using java".data).normalized_keywords_any ≠
      some ["python using java".data] := by
  constructor <;> decide

end RagSpec
